import Mathlib

/-!
Shallow embedding of the Bengali grammar corrector (`src/app.py`,
class `ImprovedBengaliCorrector`) and verification of the frozen claims.

Python strings are modelled as `List Char` (one entry per code point,
matching Python's `len` and indexing).  The `Levenshtein.distance`
library function (`fast_distance`) is modelled by the textbook
Levenshtein distance with unit-cost insertions, deletions and
substitutions, which is exactly what that library computes and what the
spec's glossary defines.  All definitions are structurally recursive
(the distance and substring replacement use an explicit fuel argument
bounded by the input length) so that every function evaluates inside the
kernel.
-/

namespace BGC

/-- A Python string, one entry per code point. -/
abbrev Str := List Char

/-- Whitespace characters recognised by Python's `str.strip` / `str.split`
(the ASCII ones; exotic Unicode whitespace plays no role in the claims). -/
def isWs (c : Char) : Bool :=
  c = ' ' || c = '\t' || c = '\n' || c = '\r' || c = '\x0b' || c = '\x0c'

/-- Python `str.strip()`: remove leading and trailing whitespace. -/
def strip (s : Str) : Str :=
  ((s.dropWhile isWs).reverse.dropWhile isWs).reverse

/-- Maximal runs of characters, cut at whitespace (empty runs included). -/
def wsChunks (s : Str) : List Str :=
  s.foldr
    (fun c acc =>
      if isWs c then [] :: acc
      else
        match acc with
        | [] => [[c]]
        | t :: ts => (c :: t) :: ts)
    []

/-- Python `str.split()` with no separator: the maximal non-empty runs of
non-whitespace characters. -/
def splitWs (s : Str) : List Str :=
  (wsChunks s).filter (fun t => !t.isEmpty)

/-- Python `" ".join(tokens)`. -/
def joinSp : List Str → Str
  | [] => []
  | [t] => t
  | t :: u :: ts => t ++ ' ' :: joinSp (u :: ts)

/-- Fuel-indexed Levenshtein distance; the fuel only steps the recursion
and never changes the value once it is at least `a.length + b.length`
(`levF_congr`). -/
def levF : Nat → Str → Str → Nat
  | _, [], b => b.length
  | _, _ :: a, [] => a.length + 1
  | Nat.succ f, x :: a, y :: b =>
      if x = y then levF f a b
      else 1 + min (levF f a (y :: b)) (min (levF f (x :: a) b) (levF f a b))
  | 0, _ :: _, _ :: _ => 0

/-- Levenshtein edit distance (unit-cost insert / delete / substitute):
the model of the imported `Levenshtein.distance` (`fast_distance`). -/
def lev (a b : Str) : Nat := levF (a.length + b.length) a b

/-- Python substring containment `old in s`: some contiguous slice of `s`
equals `old` (always true for `old = ""`). -/
def containsSub (old : Str) : Str → Bool
  | [] => old.isPrefixOf []
  | c :: cs => old.isPrefixOf (c :: cs) || containsSub old cs

/-- Fuel-driven core of Python `str.replace` for a non-empty needle
`o :: os`: scan left to right, replacing non-overlapping occurrences.
One character is consumed per step, so fuel `s.length` always suffices. -/
def replF (o : Char) (os new : Str) : Nat → Str → Str
  | _, [] => []
  | 0, s => s
  | Nat.succ f, c :: cs =>
      if (o :: os).isPrefixOf (c :: cs) then
        new ++ replF o os new f (cs.drop os.length)
      else
        c :: replF o os new f cs

/-- Python `s.replace(old, new)`: every non-overlapping occurrence of
`old` in `s` is replaced by `new`, left to right.  For `old = ""` Python
inserts `new` before every character and at the end. -/
def replaceAll (old new s : Str) : Str :=
  match old with
  | [] => new ++ s.foldr (fun c acc => c :: (new ++ acc)) []
  | o :: os => replF o os new s.length s

/-- One pattern rule `(typ, old, new)` applied to the running text, as in
the loop body of `_apply_edits`: it fires only when `typ == "sub"` and
`old in corrected`. -/
def applyRule (corrected : Str) (r : Str × Str × Str) : Str :=
  if r.1 = ['s', 'u', 'b'] ∧ containsSub r.2.1 corrected then
    replaceAll r.2.1 r.2.2 corrected
  else corrected

/-- The method `_apply_edits`: fold the ordered rule list over the text,
each rule rewriting the output of the previous one. -/
def applyEdits (edit_patterns : List (Str × Str × Str)) (text : Str) : Str :=
  edit_patterns.foldl applyRule text

/-- The inference-time tables of `ImprovedBengaliCorrector`.  Python dicts
are modelled as association lists in insertion order (the order matters
for the bounded nearest-neighbour scan). -/
structure Corrector where
  correction_dict : List (Str × Str)
  best_word_corrections : List (Str × Str)
  edit_patterns : List (Str × Str × Str)
  smoothed_bigram_corrections : List ((Str × Str) × Str)

/-- Python `d < best_distance` where `best_distance` starts at `inf`:
true when no best candidate has been recorded yet. -/
def ltOpt (d : Nat) : Option Nat → Bool
  | none => true
  | some bd => d < bd

/-- One iteration of the nearest-neighbour scan loop: skip entries whose
length differs from the query by more than 4, then record the entry when
`d <= 5 and d < best_distance` for `d` the distance to its key. -/
def nnStep (text : Str) (st : Option (Str × Nat)) (p : Str × Str) :
    Option (Str × Nat) :=
  if ((p.1.length : Int) - (text.length : Int)).natAbs > 4 then st
  else if lev text p.1 ≤ 5 ∧ ltOpt (lev text p.1) (st.map (fun q => q.2)) = true then
    some (p.2, lev text p.1)
  else st

/-- The nearest-neighbour scan over the first 3000 entries of
`correction_dict`, returning the best `(correction, distance)` pair
(or `none` when nothing was recorded). -/
def nnSearch (c : Corrector) (text : Str) : Option (Str × Nat) :=
  (c.correction_dict.take 3000).foldl (nnStep text) none

/-- The acceptance test of stage 2: `if best_match and best_distance <= 3`.
Python truthiness makes an empty-string `best_match` fail the test. -/
def nnAccept (c : Corrector) (text : Str) : Option Str :=
  match nnSearch c text with
  | some (m, d) => if m ≠ [] ∧ d ≤ 3 then some m else none
  | none => none

/-- Per-token correction: the smoothed bigram table keyed by the previous
ORIGINAL token dominates; otherwise fall back to the unigram table;
otherwise keep the token. -/
def tokenCorrect (c : Corrector) (prev : Option Str) (w : Str) : Str :=
  match prev with
  | some pw =>
      match List.lookup (pw, w) c.smoothed_bigram_corrections with
      | some r => r
      | none =>
        match List.lookup w c.best_word_corrections with
        | some r => r
        | none => w
  | none =>
      match List.lookup w c.best_word_corrections with
      | some r => r
      | none => w

/-- The word loop of stage 3: walk the token list carrying the previous
ORIGINAL token (never a corrected one) as bigram context. -/
def substGo (c : Corrector) (prev : Option Str) : List Str → List Str
  | [] => []
  | w :: ws => tokenCorrect c prev w :: substGo c (some w) ws

/-- The corrected token list `new_words` of stage 3. -/
def tokenWords (c : Corrector) (text : Str) : List Str :=
  substGo c none (splitWs text)

/-- The rejoined candidate sentence `" ".join(new_words)` of stage 3. -/
def tokenCandidate (c : Corrector) (text : Str) : Str :=
  joinSp (tokenWords c text)

/-- The `changes` counter of stage 3: how many tokens were altered. -/
def tokenChanges (c : Corrector) (text : Str) : Nat :=
  ((splitWs text).zip (tokenWords c text)).countP (fun p => p.1 ≠ p.2)

/-- Stage 3 with its acceptance guard:
`if changes > 0 and fast_distance(text, candidate) <= len(text) * 0.3`.
The float comparison `d <= len * 0.3` is modelled exactly as the rational
`10 * d <= 3 * len`, which agrees with the double-precision comparison
for every remotely realistic length. -/
def tokenStage (c : Corrector) (text : Str) : Option Str :=
  if 0 < tokenChanges c text ∧
      10 * lev text (tokenCandidate c text) ≤ 3 * text.length then
    some (tokenCandidate c text)
  else none

/-- Stage 4: only in aggressive mode, apply the pattern edits to the
(trimmed) text and return the result when it changed something. -/
def aggrStage (c : Corrector) (text : Str) (aggressive : Bool) : Str :=
  if aggressive then
    if applyEdits c.edit_patterns text ≠ text then applyEdits c.edit_patterns text
    else text
  else text

/-- The tail of the pipeline after the exact and nearest-neighbour stages:
token substitution, then the aggressive stage, then the identity fallback. -/
def postNN (c : Corrector) (text : Str) (aggressive : Bool) : Str :=
  match tokenStage c text with
  | some cand => cand
  | none => aggrStage c text aggressive

/-- The method `correct(text, aggressive)`: trim, then exact match, then
nearest neighbour, then token substitution, then optional pattern edits,
and otherwise return the trimmed text unchanged. -/
def correct (c : Corrector) (input : Str) (aggressive : Bool) : Str :=
  if strip input = [] then strip input
  else
    match List.lookup (strip input) c.correction_dict with
    | some v => v
    | none =>
      match nnAccept c (strip input) with
      | some m => m
      | none => postNN c (strip input) aggressive

/-- An index whose four tables are all empty (the `ArtifactMissing`
safe-degrade state, `ImprovedBengaliCorrector()` as returned on load
failure). -/
def cEmptyIdx : Corrector := ⟨[], [], [], []⟩

/-- Concrete index for the C1 counterexample: one exact entry whose key
carries leading whitespace. -/
def cexC1idx : Corrector := ⟨[(("    a").toList, ['b'])], [], [], []⟩

/-- Concrete index for the C1 witness. -/
def wC1idx : Corrector := ⟨[(['a'], ['b'])], [], [], []⟩

/-- Concrete index for the C2 witness. -/
def wC2idx : Corrector := ⟨[(("abc").toList, ['x'])], [], [], []⟩

/-- Concrete index for the C3 witness. -/
def wC3idx : Corrector := ⟨[], [(("ab").toList, ("ax").toList)], [], []⟩

/-- Concrete index for the C4 witness. -/
def wC4idx : Corrector :=
  ⟨[], [(("w").toList, ("A").toList)], [],
    [((("prev").toList, ("w").toList), ("B").toList)]⟩

/-- Concrete index for the C5 witness. -/
def wC5idx : Corrector := ⟨[], [], [(['s', 'u', 'b'], ['X'], ['Y'])], []⟩

/-- Concrete index for the C7 witness. -/
def wC7idx : Corrector :=
  ⟨[], [], [], [((("p").toList, ("q").toList), ("r").toList)]⟩

/-- Concrete index for the C9 witness: the nearest entry corrects to the
empty string. -/
def wC9idx : Corrector := ⟨[(("ab").toList, [])], [], [], []⟩

/-- Concrete index for the C10 witness: the unigram table rewrites `ab`
into a wildly longer word so the stage-3 guard rejects the candidate. -/
def wC10idx : Corrector :=
  ⟨[], [(("ab").toList, ("xyzzyxyzzy").toList)],
    [(['s', 'u', 'b'], ['a'], ['b'])], []⟩

theorem levF_nil_left (f : Nat) (b : Str) : levF f [] b = b.length := by
  cases f <;> rfl

theorem levF_cons_nil (f : Nat) (x : Char) (a : Str) :
    levF f (x :: a) [] = a.length + 1 := by
  cases f <;> rfl

theorem levF_succ_cons_cons (f : Nat) (x y : Char) (a b : Str) :
    levF (f + 1) (x :: a) (y :: b) =
      if x = y then levF f a b
      else 1 + min (levF f a (y :: b)) (min (levF f (x :: a) b) (levF f a b)) :=
  rfl

theorem levF_congr (f : Nat) : ∀ (g : Nat) (a b : Str),
    a.length + b.length ≤ f → a.length + b.length ≤ g →
    levF f a b = levF g a b := by
  induction f with
  | zero =>
    intro g a b hf _
    match a, b with
    | [], b => rw [levF_nil_left, levF_nil_left]
    | x :: a, [] => rw [levF_cons_nil, levF_cons_nil]
    | x :: a, y :: b => simp only [List.length_cons] at hf; omega
  | succ f ih =>
    intro g a b hf hg
    match a, b with
    | [], b => rw [levF_nil_left, levF_nil_left]
    | x :: a, [] => rw [levF_cons_nil, levF_cons_nil]
    | x :: a, y :: b =>
      match g with
      | 0 => simp only [List.length_cons] at hg; omega
      | Nat.succ g =>
        simp only [List.length_cons] at hf hg
        rw [levF_succ_cons_cons, levF_succ_cons_cons]
        rw [ih g a b (by omega) (by omega),
            ih g a (y :: b) (by simp only [List.length_cons]; omega)
              (by simp only [List.length_cons]; omega),
            ih g (x :: a) b (by simp only [List.length_cons]; omega)
              (by simp only [List.length_cons]; omega)]

theorem lev_nil_left (b : Str) : lev [] b = b.length :=
  levF_nil_left _ b

theorem lev_nil_right (a : Str) : lev a [] = a.length := by
  match a with
  | [] => rfl
  | x :: a =>
    unfold lev
    rw [levF_cons_nil]
    exact (List.length_cons x a).symm

/-- The standard Levenshtein recurrence, recovered from the fuel
presentation. -/
theorem lev_cons_cons (x y : Char) (a b : Str) :
    lev (x :: a) (y :: b) =
      if x = y then lev a b
      else 1 + min (lev a (y :: b)) (min (lev (x :: a) b) (lev a b)) := by
  have h : lev (x :: a) (y :: b)
      = levF (a.length + 1 + b.length + 1) (x :: a) (y :: b) := rfl
  rw [h, levF_succ_cons_cons]
  rw [levF_congr _ (a.length + b.length) a b
        (by omega) (by omega),
      levF_congr _ (a.length + (y :: b).length) a (y :: b)
        (by simp only [List.length_cons]; omega)
        (by simp only [List.length_cons]; omega),
      levF_congr _ ((x :: a).length + b.length) (x :: a) b
        (by simp only [List.length_cons]; omega)
        (by simp only [List.length_cons]; omega)]
  rfl

theorem lev_self (a : Str) : lev a a = 0 := by
  induction a with
  | nil => rfl
  | cons x a ih => rw [lev_cons_cons, if_pos rfl, ih]

theorem lev_comm (a b : Str) : lev a b = lev b a := by
  match a, b with
  | [], b => rw [lev_nil_left, lev_nil_right]
  | x :: a, [] => rw [lev_nil_left, lev_nil_right]
  | x :: a, y :: b =>
    rw [lev_cons_cons, lev_cons_cons]
    by_cases h : x = y
    · rw [if_pos h, if_pos h.symm, lev_comm a b]
    · rw [if_neg h, if_neg (fun hyx => h hyx.symm),
        lev_comm a (y :: b), lev_comm (x :: a) b, lev_comm a b]
      omega
termination_by a.length + b.length
decreasing_by all_goals (simp only [List.length_cons]; omega)

theorem lev_le_sum (a b : Str) : lev a b ≤ a.length + b.length := by
  match a, b with
  | [], b => rw [lev_nil_left]; omega
  | x :: a, [] => rw [lev_nil_right]; simp only [List.length_nil]; omega
  | x :: a, y :: b =>
    rw [lev_cons_cons]
    have h := lev_le_sum a b
    by_cases hxy : x = y
    · rw [if_pos hxy]; simp only [List.length_cons]; omega
    · rw [if_neg hxy]; simp only [List.length_cons]; omega
termination_by a.length + b.length
decreasing_by all_goals (simp only [List.length_cons]; omega)

theorem lev_lower (a b : Str) : b.length ≤ a.length + lev a b := by
  match a, b with
  | [], b => rw [lev_nil_left]; omega
  | x :: a, [] => simp only [List.length_nil]; omega
  | x :: a, y :: b =>
    rw [lev_cons_cons]
    by_cases hxy : x = y
    · have h := lev_lower a b
      rw [if_pos hxy]; simp only [List.length_cons]; omega
    · have h1 := lev_lower a (y :: b)
      have h2 := lev_lower (x :: a) b
      have h3 := lev_lower a b
      rw [if_neg hxy]
      simp only [List.length_cons] at h1 h2 ⊢
      omega
termination_by a.length + b.length
decreasing_by all_goals (simp only [List.length_cons]; omega)

theorem lev_lower_left (a b : Str) : a.length ≤ b.length + lev a b := by
  have h := lev_lower b a
  rw [lev_comm b a] at h
  exact h

/-- Adjacent-cell bounds: prepending one character to either argument
changes the Levenshtein distance by at most one, in both directions. -/
theorem lev_adj (a c : Str) :
    (∀ x, lev (x :: a) c ≤ 1 + lev a c) ∧
    (∀ z, lev a (z :: c) ≤ 1 + lev a c) ∧
    (∀ x, lev a c ≤ 1 + lev (x :: a) c) ∧
    (∀ z, lev a c ≤ 1 + lev a (z :: c)) := by
  refine ⟨?_, ?_, ?_, ?_⟩
  · intro x
    match c with
    | [] =>
      rw [lev_nil_right, lev_nil_right]
      simp only [List.length_cons]
      omega
    | y :: c =>
      rw [lev_cons_cons]
      by_cases hxy : x = y
      · rw [if_pos hxy]
        have h := (lev_adj a c).2.2.2 y
        omega
      · rw [if_neg hxy]; omega
  · intro z
    match a with
    | [] =>
      rw [lev_nil_left, lev_nil_left]
      simp only [List.length_cons]
      omega
    | x :: a =>
      rw [lev_cons_cons]
      by_cases hxz : x = z
      · rw [if_pos hxz]
        have h := (lev_adj a c).2.2.1 x
        omega
      · rw [if_neg hxz]; omega
  · intro x
    match c with
    | [] =>
      rw [lev_nil_right, lev_nil_right]
      simp only [List.length_cons]
      omega
    | y :: c =>
      rw [lev_cons_cons]
      by_cases hxy : x = y
      · rw [if_pos hxy]
        have h := (lev_adj a c).2.1 y
        omega
      · rw [if_neg hxy]
        have h1 := (lev_adj a c).2.1 y
        have h2 := (lev_adj a c).2.2.1 x
        omega
  · intro z
    match a with
    | [] =>
      rw [lev_nil_left, lev_nil_left]
      simp only [List.length_cons]
      omega
    | x :: a =>
      rw [lev_cons_cons]
      by_cases hxz : x = z
      · rw [if_pos hxz]
        have h := (lev_adj a c).1 x
        omega
      · rw [if_neg hxz]
        have h1 := (lev_adj a c).1 x
        have h2 := (lev_adj a c).2.2.2 z
        omega
termination_by a.length + c.length
decreasing_by all_goals (simp only [List.length_cons]; omega)

/-- Triangle inequality for the Levenshtein distance. -/
theorem lev_triangle (a b c : Str) : lev a c ≤ lev a b + lev b c := by
  match a, b, c with
  | a, [], c =>
    rw [lev_nil_right, lev_nil_left]
    exact lev_le_sum a c
  | [], y :: b, c =>
    rw [lev_nil_left, lev_nil_left]
    exact lev_lower (y :: b) c
  | x :: a, y :: b, [] =>
    rw [lev_nil_right, lev_nil_right]
    have h := lev_lower_left (x :: a) (y :: b)
    omega
  | x :: a, y :: b, z :: c =>
    have ih1 := lev_triangle a b c
    have ih2 := lev_triangle a b (z :: c)
    have ih3 := lev_triangle a (y :: b) (z :: c)
    have ih4 := lev_triangle (x :: a) (y :: b) c
    have ih5 := lev_triangle (x :: a) b (z :: c)
    have adj1 := (lev_adj a (z :: c)).1 x
    have adj2 := (lev_adj (x :: a) c).2.1 z
    have adj3 := (lev_adj b (z :: c)).2.2.1 y
    have adj4 := (lev_adj b c).2.1 z
    have e1 := lev_cons_cons x z a c
    have e2 := lev_cons_cons x y a b
    have e3 := lev_cons_cons y z b c
    by_cases hxy : x = y
    · rw [if_pos hxy] at e2
      by_cases hyz : y = z
      · rw [if_pos hyz] at e3
        rw [if_pos (hxy.trans hyz)] at e1
        omega
      · rw [if_neg hyz] at e3
        rw [if_neg (fun h => hyz (hxy.symm.trans h))] at e1
        omega
    · rw [if_neg hxy] at e2
      by_cases hyz : y = z
      · rw [if_pos hyz] at e3
        by_cases hxz : x = z
        · rw [if_pos hxz] at e1
          omega
        · rw [if_neg hxz] at e1
          omega
      · rw [if_neg hyz] at e3
        by_cases hxz : x = z
        · rw [if_pos hxz] at e1
          omega
        · rw [if_neg hxz] at e1
          omega
termination_by a.length + b.length + c.length
decreasing_by all_goals (simp only [List.length_cons]; omega)

/-- Unfolding `correct` past the exact and nearest-neighbour stages. -/
theorem correct_unfold (c : Corrector) (input : Str) (ag : Bool)
    (h0 : strip input ≠ [])
    (h1 : List.lookup (strip input) c.correction_dict = none)
    (h2 : nnAccept c (strip input) = none) :
    correct c input ag = postNN c (strip input) ag := by
  unfold correct
  rw [if_neg h0, h1, h2]

/-- Any candidate recorded by the scan loop comes from a scanned entry,
at its true distance from the query, and within the search radius 5. -/
theorem nnFold_spec (text : Str) (l : List (Str × Str)) :
    ∀ (st : Option (Str × Nat)) (r : Str) (d : Nat),
    l.foldl (nnStep text) st = some (r, d) →
    st = some (r, d) ∨ ∃ k, (k, r) ∈ l ∧ d = lev text k ∧ d ≤ 5 := by
  induction l with
  | nil =>
    intro st r d h
    rw [List.foldl_nil] at h
    exact Or.inl h
  | cons p l ih =>
    intro st r d h
    rw [List.foldl_cons] at h
    rcases ih (nnStep text st p) r d h with h1 | ⟨k, hk, hd, hd5⟩
    · unfold nnStep at h1
      by_cases hf : ((p.1.length : Int) - (text.length : Int)).natAbs > 4
      · rw [if_pos hf] at h1
        exact Or.inl h1
      · rw [if_neg hf] at h1
        by_cases hc : lev text p.1 ≤ 5 ∧
            ltOpt (lev text p.1) (st.map (fun q => q.2)) = true
        · rw [if_pos hc] at h1
          have h2 := Option.some.inj h1
          rw [Prod.mk.injEq] at h2
          right
          refine ⟨p.1, ?_, h2.2.symm, ?_⟩
          · rw [← h2.1]
            exact List.mem_cons_self _ _
          · rw [← h2.2]
            exact hc.1
        · rw [if_neg hc] at h1
          exact Or.inl h1
    · exact Or.inr ⟨k, List.mem_cons_of_mem p hk, hd, hd5⟩

/-- Tokens paired with themselves register no change. -/
theorem countP_zip_self (ws : List Str) :
    (ws.zip ws).countP (fun p => p.1 ≠ p.2) = 0 := by
  induction ws with
  | nil => rfl
  | cons w ws ih =>
    rw [List.zip_cons_cons, List.countP_cons, ih]
    simp

/-- With empty word tables the substitution loop is the identity. -/
theorem substGo_id (c : Corrector)
    (hbw : c.best_word_corrections = [])
    (hbg : c.smoothed_bigram_corrections = []) :
    ∀ (p : Option Str) (ws : List Str), substGo c p ws = ws := by
  intro p ws
  induction ws generalizing p with
  | nil => rfl
  | cons w ws ih =>
    show tokenCorrect c p w :: substGo c (some w) ws = w :: ws
    rw [ih (some w)]
    cases p with
    | none => simp [tokenCorrect, hbw]
    | some pw => simp [tokenCorrect, hbw, hbg]

/-- The empty index never reports a nearest-neighbour candidate. -/
theorem nnAccept_empty (s : Str) : nnAccept cEmptyIdx s = none := by
  unfold nnAccept nnSearch
  rw [show cEmptyIdx.correction_dict = [] from rfl, List.take_nil,
    List.foldl_nil]

/-- The tail of the pipeline is the identity on the empty index. -/
theorem postNN_empty (s : Str) (ag : Bool) : postNN cEmptyIdx s ag = s := by
  have hw : tokenWords cEmptyIdx s = splitWs s :=
    substGo_id cEmptyIdx rfl rfl none (splitWs s)
  have hch : tokenChanges cEmptyIdx s = 0 := by
    unfold tokenChanges
    rw [hw]
    exact countP_zip_self _
  have hts : tokenStage cEmptyIdx s = none := by
    unfold tokenStage
    rw [hch]
    simp
  have hae : applyEdits cEmptyIdx.edit_patterns s = s := rfl
  unfold postNN
  rw [hts]
  unfold aggrStage
  cases ag with
  | false => rfl
  | true =>
    rw [if_pos rfl, hae]
    simp

/-- Head of the substitution output. -/
theorem substGo_get_zero (c : Corrector) (p : Option Str) (ws : List Str) :
    (substGo c p ws)[0]? = (ws[0]?).map (tokenCorrect c p) := by
  cases ws <;> simp [substGo]

/-- The token written at position `j + 1` is the correction of the
original token there, in the context of the original token at `j`. -/
theorem substGo_get_succ (c : Corrector) (p : Option Str) (ws : List Str)
    (j : Nat) :
    (substGo c p ws)[j + 1]? = (ws[j + 1]?).map (tokenCorrect c ws[j]?) := by
  induction ws generalizing p j with
  | nil => simp [substGo]
  | cons w ws ih =>
    show (tokenCorrect c p w :: substGo c (some w) ws)[j + 1]? = _
    rw [List.getElem?_cons_succ]
    cases j with
    | zero =>
      rw [substGo_get_zero]
      simp
    | succ k =>
      rw [ih (some w) k]
      simp

/-- Claim C1 fails as stated: for the index `cexC1idx` the string
`"    a"` is a key of the exact-sentence map, yet `correct` returns the
trimmed string `"a"` in both modes, not the mapped value `"b"` — the
exact stage looks up the TRIMMED text, so a key with surrounding
whitespace is never matched. -/
theorem C1_counterexample :
    List.lookup (("    a").toList) cexC1idx.correction_dict = some ['b'] ∧
    correct cexC1idx (("    a").toList) false ≠ ['b'] ∧
    correct cexC1idx (("    a").toList) true ≠ ['b'] := by
  decide

/-- Claim C1 (amended): for every key `x` of the exact-sentence map that
is nonempty and equal to its own whitespace trim, `correct x false` and
`correct x true` both return the mapped value; on such keys the exact
stage has highest priority and bypasses all other stages in both modes. -/
theorem C1_exact_match_trimmed_key (c : Corrector) (x v : Str) (ag : Bool)
    (hx : strip x = x) (hne : x ≠ [])
    (hk : List.lookup x c.correction_dict = some v) :
    correct c x ag = v := by
  unfold correct
  rw [hx, if_neg hne, hk]

/-- Witness for C1 (amended) at the concrete index `wC1idx` and key "a". -/
theorem C1_exact_match_trimmed_key_witness :
    correct wC1idx ['a'] false = ['b'] ∧ correct wC1idx ['a'] true = ['b'] :=
  ⟨C1_exact_match_trimmed_key wC1idx ['a'] ['b'] false (by decide) (by decide)
      (by decide),
    C1_exact_match_trimmed_key wC1idx ['a'] ['b'] true (by decide) (by decide)
      (by decide)⟩

/-- Claim C2: whenever the nearest-neighbour stage returns a correction
`m`, the matched exact-map key `k` lies in the scanned prefix (first 3000
entries) and its edit distance to the (trimmed) input is at most the
acceptance threshold 3; a candidate at distance greater than 3 is never
returned by that stage. -/
theorem C2_nn_accept_within_radius (c : Corrector) (text m : Str)
    (h : nnAccept c text = some m) :
    ∃ k d, (k, m) ∈ c.correction_dict.take 3000 ∧ lev text k = d ∧ d ≤ 3 := by
  unfold nnAccept at h
  cases hs : nnSearch c text with
  | none =>
    rw [hs] at h
    exact Option.noConfusion h
  | some p =>
    obtain ⟨r, d⟩ := p
    rw [hs] at h
    change (if r ≠ [] ∧ d ≤ 3 then some r else none) = some m at h
    by_cases hc : r ≠ [] ∧ d ≤ 3
    · rw [if_pos hc] at h
      have hm := Option.some.inj h
      rcases nnFold_spec text (c.correction_dict.take 3000) none r d hs with
        h1 | ⟨k, hk, hd, _⟩
      · exact Option.noConfusion h1
      · exact ⟨k, d, hm ▸ hk, hd.symm, hc.2⟩
    · rw [if_neg hc] at h
      exact Option.noConfusion h

/-- Witness for C2 at the concrete index `wC2idx` and query "abd". -/
theorem C2_nn_accept_within_radius_witness :
    ∃ k d, (k, ['x']) ∈ wC2idx.correction_dict.take 3000 ∧
      lev (("abd").toList) k = d ∧ d ≤ 3 :=
  C2_nn_accept_within_radius wC2idx (("abd").toList) ['x'] (by decide)

/-- Claim C3: on a trimmed non-empty input that neither the exact stage
nor the nearest-neighbour stage resolves, the pipeline returns the
rejoined token-substitution candidate exactly when at least one token
changed AND the edit distance between input and candidate is at most 30%
of the input's character length; otherwise it falls through to the
aggressive stage (the identity when `aggressive` is off). -/
theorem C3_token_stage_guard (c : Corrector) (text : Str)
    (h0 : strip text = text) (h1 : text ≠ [])
    (h2 : List.lookup text c.correction_dict = none)
    (h3 : nnAccept c text = none) :
    ((0 < tokenChanges c text ∧
        10 * lev text (tokenCandidate c text) ≤ 3 * text.length) →
      ∀ ag, correct c text ag = tokenCandidate c text) ∧
    (¬(0 < tokenChanges c text ∧
        10 * lev text (tokenCandidate c text) ≤ 3 * text.length) →
      correct c text false = text ∧
      correct c text true = aggrStage c text true) := by
  have hpost : ∀ ag, correct c text ag = postNN c text ag := by
    intro ag
    have ha : strip text ≠ [] := by rw [h0]; exact h1
    have hb : List.lookup (strip text) c.correction_dict = none := by
      rw [h0]; exact h2
    have hc : nnAccept c (strip text) = none := by rw [h0]; exact h3
    have h := correct_unfold c text ag ha hb hc
    rw [h0] at h
    exact h
  constructor
  · intro hacc ag
    rw [hpost ag]
    unfold postNN tokenStage
    rw [if_pos hacc]
  · intro hrej
    constructor
    · rw [hpost false]
      unfold postNN tokenStage
      rw [if_neg hrej]
      rfl
    · rw [hpost true]
      unfold postNN tokenStage
      rw [if_neg hrej]

/-- Witness for C3 at the concrete index `wC3idx` and input "ab cd"
(one token changed, distance 1 within 30% of length 5). -/
theorem C3_token_stage_guard_witness :
    correct wC3idx (("ab cd").toList) false = ("ax cd").toList := by
  have h := (C3_token_stage_guard wC3idx (("ab cd").toList)
      (by decide) (by decide) (by decide) (by decide)).1 (by decide) false
  exact h.trans (by decide)

/-- Claim C4: when the exact and nearest-neighbour stages do not apply,
a bigram-context entry for ("prev", "w") strictly dominates the unigram
entry for "w": `correct "prev w" false` rewrites "w" to "B", not to the
unigram value "A". -/
theorem C4_bigram_dominates_unigram (c : Corrector)
    (h1 : List.lookup (("prev w").toList) c.correction_dict = none)
    (h2 : nnAccept c (("prev w").toList) = none)
    (h3 : List.lookup ((("prev").toList, ("w").toList))
        c.smoothed_bigram_corrections = some (("B").toList))
    (h4 : List.lookup (("w").toList) c.best_word_corrections
        = some (("A").toList))
    (h5 : List.lookup (("prev").toList) c.best_word_corrections = none) :
    correct c (("prev w").toList) false = ("prev B").toList := by
  have hst : strip (("prev w").toList) = ("prev w").toList := by decide
  have hsplit : splitWs (("prev w").toList)
      = [("prev").toList, ("w").toList] := by decide
  have hw : tokenWords c (("prev w").toList)
      = [("prev").toList, ("B").toList] := by
    unfold tokenWords
    rw [hsplit]
    simp only [substGo, tokenCorrect, h3, h5]
  have hch : tokenChanges c (("prev w").toList) = 1 := by
    unfold tokenChanges
    rw [hsplit, hw]
    decide
  have hcand : tokenCandidate c (("prev w").toList) = ("prev B").toList := by
    unfold tokenCandidate
    rw [hw]
    decide
  have hts : tokenStage c (("prev w").toList) = some (("prev B").toList) := by
    unfold tokenStage
    rw [hch, hcand]
    decide
  have hu := correct_unfold c (("prev w").toList) false
    (by rw [hst]; decide) (by rw [hst]; exact h1) (by rw [hst]; exact h2)
  rw [hu, hst]
  unfold postNN
  rw [hts]

/-- Witness for C4 at the concrete index `wC4idx`. -/
theorem C4_bigram_dominates_unigram_witness :
    correct wC4idx (("prev w").toList) false = ("prev B").toList :=
  C4_bigram_dominates_unigram wC4idx (by decide) (by decide) (by decide)
    (by decide) (by decide)

/-- Claim C5: pattern rules fire only in aggressive mode.  On a trimmed
non-empty input not resolved by the exact, nearest-neighbour or
token-substitution stages, with rule list `[("sub", X, Y)]` and `X`
occurring in the input, conservative mode returns the input unchanged
while aggressive mode returns the input with every occurrence of `X`
replaced by `Y`; moreover rules are folded in list order, each rewriting
the output of the previous one, and a rule whose kind is not "sub" has
no effect. -/
theorem C5_pattern_rules_aggressive_only (c : Corrector) (t X Y : Str)
    (h0 : strip t = t) (h1 : t ≠ [])
    (h2 : List.lookup t c.correction_dict = none)
    (h3 : nnAccept c t = none)
    (h4 : tokenStage c t = none)
    (h5 : c.edit_patterns = [(['s', 'u', 'b'], X, Y)])
    (h6 : containsSub X t = true) :
    correct c t false = t ∧
    correct c t true = replaceAll X Y t ∧
    (∀ (r : Str × Str × Str) (rs : List (Str × Str × Str)) (s : Str),
      applyEdits (r :: rs) s = applyEdits rs (applyRule s r)) ∧
    (∀ (r : Str × Str × Str) (s : Str),
      r.1 ≠ ['s', 'u', 'b'] → applyRule s r = s) := by
  have hpost : ∀ ag, correct c t ag = postNN c t ag := by
    intro ag
    have ha : strip t ≠ [] := by rw [h0]; exact h1
    have hb : List.lookup (strip t) c.correction_dict = none := by
      rw [h0]; exact h2
    have hc : nnAccept c (strip t) = none := by rw [h0]; exact h3
    have h := correct_unfold c t ag ha hb hc
    rw [h0] at h
    exact h
  have hae : applyEdits c.edit_patterns t = replaceAll X Y t := by
    rw [h5]
    unfold applyEdits
    rw [List.foldl_cons, List.foldl_nil]
    unfold applyRule
    rw [if_pos ⟨rfl, h6⟩]
  refine ⟨?_, ?_, ?_, ?_⟩
  · rw [hpost false]
    unfold postNN
    rw [h4]
    rfl
  · rw [hpost true]
    unfold postNN
    rw [h4]
    unfold aggrStage
    rw [if_pos rfl, hae]
    by_cases hne : replaceAll X Y t ≠ t
    · rw [if_pos hne]
    · rw [if_neg hne]
      push_neg at hne
      exact hne.symm
  · intro r rs s
    rfl
  · intro r s hr
    unfold applyRule
    rw [if_neg (fun hc => hr hc.1)]

/-- Witness for C5 at the concrete index `wC5idx` and input "qXq". -/
theorem C5_pattern_rules_aggressive_only_witness :
    correct wC5idx (("qXq").toList) false = ("qXq").toList ∧
    correct wC5idx (("qXq").toList) true
      = replaceAll ['X'] ['Y'] (("qXq").toList) := by
  have h := C5_pattern_rules_aggressive_only wC5idx (("qXq").toList)
    ['X'] ['Y'] (by decide) (by decide) (by decide) (by decide) (by decide)
    rfl (by decide)
  exact ⟨h.1, h.2.1⟩

/-- Claim C6 fails as stated: with all four tables empty, `correct` is
not the pure identity on EVERY input — it trims, so `" a"` maps to `"a"`. -/
theorem C6_counterexample :
    correct cEmptyIdx ((" a").toList) false ≠ (" a").toList ∧
    correct cEmptyIdx ((" a").toList) true ≠ (" a").toList := by
  decide

/-- Claim C6 (amended): with all four tables empty (the ArtifactMissing
safe-degrade state), `correct` is total and returns the whitespace-trim
of its input in both modes — hence it is the pure identity on every
already-trimmed input. -/
theorem C6_empty_index_returns_trimmed (x : Str) (ag : Bool) :
    correct cEmptyIdx x ag = strip x := by
  by_cases h : strip x = []
  · unfold correct
    rw [if_pos h]
  · have hb : List.lookup (strip x) cEmptyIdx.correction_dict = none := rfl
    rw [correct_unfold cEmptyIdx x ag h hb (nnAccept_empty _)]
    exact postNN_empty _ _

/-- Claim C7: in the token-substitution stage, the correction written at
any position `i > 0` is a function of the ORIGINAL tokens at positions
`i - 1` and `i` only — the bigram context is the original previous
token, so corrections applied earlier never cascade into the context. -/
theorem C7_original_prev_context (c : Corrector) (ws : List Str) (i : Nat)
    (h : 0 < i) :
    (substGo c none ws)[i]? = (ws[i]?).map (tokenCorrect c ws[i - 1]?) := by
  obtain ⟨j, rfl⟩ : ∃ j, i = j + 1 := ⟨i - 1, by omega⟩
  simpa using substGo_get_succ c none ws j

/-- Witness for C7 at the concrete index `wC7idx`, tokens ["p", "q"],
position 1. -/
theorem C7_original_prev_context_witness :
    (substGo wC7idx none [("p").toList, ("q").toList])[1]?
      = ([("p").toList, ("q").toList][1]?).map
          (tokenCorrect wC7idx [("p").toList, ("q").toList][1 - 1]?) :=
  C7_original_prev_context wC7idx [("p").toList, ("q").toList] 1 (by decide)

/-- Claim C8: the edit distance used by the system is a metric —
identity of indiscernibles on the diagonal, symmetric, and satisfying
the triangle inequality — and on the hand-computed Bengali pair the
distance is 1. -/
theorem C8_lev_metric :
    (∀ a : Str, lev a a = 0) ∧
    (∀ a b : Str, lev a b = lev b a) ∧
    (∀ a b c : Str, lev a c ≤ lev a b + lev b c) ∧
    lev (("কাটা").toList) (("কাঠা").toList) = 1 :=
  ⟨lev_self, lev_comm, lev_triangle, by decide⟩

/-- Claim C9: if the minimum-distance candidate found by the
nearest-neighbour scan corrects to the empty string, the stage returns
nothing — even when the distance is within the acceptance threshold —
and the pipeline falls through to the token-substitution tail. -/
theorem C9_empty_value_not_returned (c : Corrector) (input : Str) (d : Nat)
    (hs : nnSearch c (strip input) = some ([], d)) (hd : d ≤ 3)
    (h0 : strip input ≠ [])
    (h1 : List.lookup (strip input) c.correction_dict = none) :
    nnAccept c (strip input) = none ∧
    ∀ ag, correct c input ag = postNN c (strip input) ag := by
  have hacc : nnAccept c (strip input) = none := by
    unfold nnAccept
    rw [hs]
    simp
  exact ⟨hacc, fun ag => correct_unfold c input ag h0 h1 hacc⟩

/-- Witness for C9 at the concrete index `wC9idx` and input "abc"
(nearest entry "ab" at distance 1 corrects to the empty string). -/
theorem C9_empty_value_not_returned_witness :
    nnAccept wC9idx (strip (("abc").toList)) = none ∧
    correct wC9idx (("abc").toList) false
      = postNN wC9idx (strip (("abc").toList)) false := by
  have h := C9_empty_value_not_returned wC9idx (("abc").toList) 1
    (by decide) (by decide) (by decide) (by decide)
  exact ⟨h.1, h.2 false⟩

/-- Claim C10: when the token-substitution stage rejects its candidate
and aggressive mode is on, the pattern edits are applied to the TRIMMED
ORIGINAL input, not to the rejected candidate, which is discarded
entirely. -/
theorem C10_aggressive_on_original_text (c : Corrector) (input : Str)
    (h0 : strip input ≠ [])
    (h1 : List.lookup (strip input) c.correction_dict = none)
    (h2 : nnAccept c (strip input) = none)
    (h3 : tokenStage c (strip input) = none) :
    correct c input true =
      (if applyEdits c.edit_patterns (strip input) ≠ strip input
       then applyEdits c.edit_patterns (strip input) else strip input) := by
  rw [correct_unfold c input true h0 h1 h2]
  unfold postNN
  rw [h3]
  unfold aggrStage
  rw [if_pos rfl]

/-- Witness for C10 at the concrete index `wC10idx` and input "ab": the
stage-3 candidate "xyzzyxyzzy" is rejected by the 30% guard, and the
rules rewrite the original "ab" into "bb". -/
theorem C10_aggressive_on_original_text_witness :
    correct wC10idx (("ab").toList) true = ("bb").toList := by
  have h := C10_aggressive_on_original_text wC10idx (("ab").toList)
    (by decide) (by decide) (by decide) (by decide)
  exact h.trans (by decide)

end BGC
